import Mathlib

/-!
Verification of the aivim editing core (crates/aivim-core) against its
natural-language specification.  The Rust sources are shallowly embedded:
text is a `List Char`, ropey's rope is modelled by explicit line
segmentation, fallible rope operations (which panic on out-of-range
indices) return `Option`, and iterator loops become `dropWhile` chains or
fuelled recursion.  Byte indices coincide with character indices on the
ASCII inputs exercised by the concrete scenarios.
-/

namespace AiVim

/-- Text content: a sequence of characters (the rope's character view). -/
abbrev Str := List Char

/-- Rust `ch.is_alphanumeric() || ch == '_'` (ASCII fragment; all concrete
inputs in scope are ASCII). -/
def isWordChar (c : Char) : Bool := c.isAlphanum || c = '_'

/-- Rust `ch.is_whitespace()` (ASCII fragment of Unicode White_Space). -/
def isWs (c : Char) : Bool :=
  c = ' ' || c = '\t' || c = '\n' || c = '\x0b' || c = '\x0c' || c = '\r'

/-- Non-word, non-whitespace: the "punctuation" class used by the word
motions (`!ch.is_alphanumeric() && ch != '_' && !ch.is_whitespace()`). -/
def isPunctChar (c : Char) : Bool := !isWordChar c && !isWs c

/-- Split text into ropey's lines, each line KEEPING its terminating
newline; the final line has no newline.  `linesKeep [] = [[]]`: an empty
buffer has one zero-length line, and `"a\n"` has a trailing empty line,
exactly as `rope.len_lines()` counts them. -/
def linesKeep : Str → List Str
  | [] => [[]]
  | c :: rest =>
    if c = '\n' then [c] :: linesKeep rest
    else
      match linesKeep rest with
      | [] => [[c]]
      | l :: ls => (c :: l) :: ls

/-- `rope.len_lines()`: number of line breaks plus one. -/
def numLines (s : Str) : Nat := (linesKeep s).length

/-- Total character length of a list of line segments. -/
def sumLen (L : List Str) : Nat := (L.map List.length).sum

/-- `rope.line_to_char(i)`: character offset of the start of line `i`. -/
def lineToChar (s : Str) (i : Nat) : Nat := sumLen ((linesKeep s).take i)

/-- `buffer.line_len(i)`: length of line `i` including its newline;
`0` when the line index is out of range (`line()` returns `None`). -/
def lineLen (s : Str) (i : Nat) : Nat := ((linesKeep s).getD i []).length

/-- Helper for `char_to_line`: walk the line segments; a newline belongs
to the line it terminates, and the end-of-text offset belongs to the last
line, as in ropey. -/
def charToLineAux : List Str → Nat → Nat
  | [], _ => 0
  | [_], _ => 0
  | l :: l2 :: ls, c =>
    if c < l.length then 0 else 1 + charToLineAux (l2 :: ls) (c - l.length)

/-- `rope.char_to_line(c)`. -/
def charToLine (s : Str) (c : Nat) : Nat := charToLineAux (linesKeep s) c

/-- `line_text.strip_suffix('\n').unwrap_or(&line_text)`. -/
def stripNl (l : Str) : Str := if l.getLast? = some '\n' then l.dropLast else l

/-- The text of line `i` with its newline stripped, `[]` when out of range
(`buffer.line(i).map(|l| l.to_string()).unwrap_or_default()` stripped). -/
def lineStripped (s : Str) (i : Nat) : Str := stripNl ((linesKeep s).getD i [])

/-- `Cursor` from cursor.rs: line, column, and the sticky preferred
column.  Equality compares all three fields, as Rust's derived `PartialEq`
does. -/
structure Cursor where
  line : Nat
  column : Nat
  preferred_column : Option Nat
deriving DecidableEq

/-- `Cursor::to_char_idx`: line start offset plus column. -/
def Cursor.to_char_idx (cur : Cursor) (s : Str) : Nat :=
  lineToChar s cur.line + cur.column

/-- `Cursor::from_char_idx`: inverse via line lookup.  Note it builds the
cursor with `Cursor::new`, whose `preferred_column` is `None`. -/
def Cursor.from_char_idx (s : Str) (ci : Nat) : Cursor :=
  let line := charToLine s ci
  ⟨line, ci - lineToChar s line, none⟩

/-- `Cursor::move_left(buffer, count)` from cursor.rs: when the count
exceeds the column on a non-first line it moves to the previous line, at
column `min(prev_len - 1, preferred_column.unwrap_or(0))`; finally
`update_preferred_column` runs. -/
def Cursor.move_left (cur : Cursor) (s : Str) (count : Nat) : Cursor :=
  let c1 :=
    if count ≤ cur.column then { cur with column := cur.column - count }
    else if 0 < cur.line then
      let line' := cur.line - 1
      let prevLen := lineLen s line'
      { cur with line := line',
                 column := min (prevLen - 1) (cur.preferred_column.getD 0) }
    else { cur with column := 0 }
  { c1 with preferred_column := some c1.column }

/-- `Cursor::move_right(buffer, count)` from cursor.rs: past the line's
last column it moves to the next line's column 0 when one exists,
otherwise clamps; finally `update_preferred_column` runs. -/
def Cursor.move_right (cur : Cursor) (s : Str) (count : Nat) : Cursor :=
  let len := lineLen s cur.line
  let maxCol := len - 1
  let c1 :=
    if cur.column + count ≤ maxCol then { cur with column := cur.column + count }
    else if cur.line + 1 < numLines s then
      { cur with line := cur.line + 1, column := 0 }
    else { cur with column := maxCol }
  { c1 with preferred_column := some c1.column }

/-- `Buffer` from buffer.rs.  The underlying rope is its character
sequence; the persistence metadata fields are carried verbatim. -/
structure Buffer where
  id : Nat
  content : Str
  file_path : Option String
  modified : Bool
  read_only : Bool
deriving DecidableEq

/-- `Buffer::new`. -/
def Buffer.new (id : Nat) : Buffer :=
  ⟨id, [], none, false, false⟩

/-- `Buffer::insert(char_idx, text)`.  Read-only buffers are silently
unchanged; otherwise `rope.insert` panics when `char_idx` exceeds the
character length, modelled as `none`. -/
def Buffer.insert? (b : Buffer) (idx : Nat) (text : Str) : Option Buffer :=
  if b.read_only then some b
  else if idx ≤ b.content.length then
    some { b with content := b.content.take idx ++ text ++ b.content.drop idx,
                  modified := true }
  else none

/-- `Buffer::remove(char_idx, len)`.  The end offset is clamped to the
buffer length (`(char_idx + len).min(len_chars)`); `rope.remove` panics
when the start exceeds the end, i.e. when `char_idx` exceeds the buffer
length, modelled as `none`. -/
def Buffer.remove? (b : Buffer) (idx : Nat) (len : Nat) : Option Buffer :=
  if b.read_only then some b
  else if idx ≤ b.content.length then
    let endIdx := min (idx + len) b.content.length
    some { b with content := b.content.take idx ++ b.content.drop endIdx,
                  modified := true }
  else none

/-- `Buffer::remove_char(char_idx)`: guarded single-character removal
returning the removed character. -/
def Buffer.remove_char (b : Buffer) (idx : Nat) : Buffer × Option Char :=
  if b.read_only || b.content.length ≤ idx then (b, none)
  else
    ({ b with content := b.content.take idx ++ b.content.drop (idx + 1),
              modified := true },
     b.content.get? idx)

/-- `Buffer::save`: the byte sequence written to the associated file
(`none` models the `io::Error` when no path is set).  The rope's chunks
are written verbatim, then a newline is appended only when the content is
non-empty and its last character is not already a newline. -/
def Buffer.savedBytes (b : Buffer) : Option Str :=
  match b.file_path with
  | none => none
  | some _ =>
    some (b.content ++
      (if 0 < b.content.length then
        (if b.content.getLast? = some '\n' then [] else ['\n'])
       else []))

/-- `Edit::Backspace` from edit.rs (`Edit::execute`): returns the new
cursor, the new buffer and the optionally removed character.  At column 0
on a non-first line it removes the character just before the line start
(the separating newline) and places the cursor on the previous line at
column `prev_line_len` (the previous line's length INCLUDING its
newline). -/
def editBackspace (cur : Cursor) (b : Buffer) : Cursor × Buffer × Option Char :=
  if 0 < cur.column then
    let ci := cur.to_char_idx b.content
    let r := b.remove_char (ci - 1)
    (cur.move_left r.1.content 1, r.1, r.2)
  else if 0 < cur.line then
    let prevLen := lineLen b.content (cur.line - 1)
    let cls := lineToChar b.content cur.line
    let b' := (b.remove? (cls - 1) 1).getD b
    (⟨cur.line - 1, prevLen, cur.preferred_column⟩, b', none)
  else (cur, b, none)

/-- The two word motions exercised by the word-operator claims (the other
`Motion` variants play no role in them). -/
inductive Motion where
  | WordForward
  | WordBackward
deriving DecidableEq

/-- `move_word_forward_internal` from motion.rs, fuelled by the number of
remaining recursive calls (each recursion moves to the next line, so
`numLines` fuel always suffices).  `cross` is the `cross_line` flag: after
crossing, leading whitespace is skipped and the motion stops at the first
word start on the new line. -/
def mwfGo (s : Str) : Nat → Bool → Cursor → Cursor
  | 0, _, cur => cur
  | fuel + 1, cross, cur =>
    let lt := lineStripped s cur.line
    if lt.length ≤ cur.column then
      -- at or past line end: continue on the next line (plain return at
      -- the last line, without updating the preferred column)
      if cur.line + 1 < numLines s then
        mwfGo s fuel true ⟨cur.line + 1, 0, cur.preferred_column⟩
      else cur
    else
      let remaining := lt.drop cur.column
      let afterCross := if cross then remaining.dropWhile isWs else remaining
      if cross && !afterCross.isEmpty then
        -- stop at the first word start of the new line
        let newCol := cur.column + (remaining.length - afterCross.length)
        ⟨cur.line, newCol, some newCol⟩
      else
        let atWord := (afterCross.head?.map isWordChar).getD false
        let rest :=
          if atWord then
            ((afterCross.dropWhile isWordChar).dropWhile isPunctChar).dropWhile isWs
          else
            (afterCross.dropWhile isPunctChar).dropWhile isWs
        let consumed := remaining.length - rest.length
        let newCol := cur.column + consumed
        if lt.length ≤ newCol then
          if cur.line + 1 < numLines s then
            let cur2 := mwfGo s fuel true ⟨cur.line + 1, 0, cur.preferred_column⟩
            { cur2 with preferred_column := some cur2.column }
          else
            ⟨cur.line, lt.length - 1, some (lt.length - 1)⟩
        else
          ⟨cur.line, newCol, some newCol⟩

/-- Drop the longest suffix of characters satisfying `p` (the reverse
`chars.last()/pop()` loops of `move_word_backward`). -/
def dropTail (p : Char → Bool) (l : Str) : Str := (l.reverse.dropWhile p).reverse

/-- `move_word_backward` from motion.rs, fuelled (each recursion moves to
the previous line).  At column 0 on a non-first line it re-runs from the
previous line's stripped end; otherwise it pops trailing whitespace, then
punctuation, then the word itself from the text before the cursor. -/
def mwbGo (s : Str) : Nat → Cursor → Cursor
  | 0, cur => cur
  | fuel + 1, cur =>
    if cur.column = 0 then
      if 0 < cur.line then
        let prevLt := lineStripped s (cur.line - 1)
        mwbGo s fuel ⟨cur.line - 1, prevLt.length, cur.preferred_column⟩
      else cur
    else
      let lt := lineStripped s cur.line
      let preceding := lt.take (min cur.column lt.length)
      let afterPops := dropTail isWordChar (dropTail isPunctChar (dropTail isWs preceding))
      ⟨cur.line, afterPops.length, some afterPops.length⟩

/-- `Motion::execute` for the embedded variants. -/
def Motion.exec (m : Motion) (cur : Cursor) (s : Str) : Cursor :=
  match m with
  | .WordForward => mwfGo s (numLines s) false cur
  | .WordBackward => mwbGo s (numLines s + 1) cur

/-- `Editor::delete_to_motion_with_register` from editor.rs, restricted to
the state it reads and writes for the word-delete claims: the active
buffer and the cursor (the undo snapshot is modelled separately and the
register writes are orthogonal to the deleted-range claim).  Both
embedded motions satisfy the source's
`matches!(motion, WordForward | WordBackward)` guard, so the
newline-truncation step always applies: the first newline inside the
ordered span `[lo, hi)` replaces the motion's end offset. -/
def deleteToMotion (m : Motion) (cur : Cursor) (b : Buffer) :
    Option Str × Cursor × Buffer :=
  let s := b.content
  let startIdx := cur.to_char_idx s
  let temp := m.exec cur s
  let endIdx0 := temp.to_char_idx s
  if startIdx = endIdx0 then (none, cur, b)
  else
    let lo := min startIdx endIdx0
    let hi := max startIdx endIdx0
    let span := (s.drop lo).take (hi - lo)
    let endIdx :=
      match span.findIdx? (fun c => c = '\n') with
      | some p => lo + p
      | none => endIdx0
    if startIdx = endIdx then (none, cur, b)
    else
      let lo2 := min startIdx endIdx
      let hi2 := max startIdx endIdx
      let isForward := startIdx < endIdx
      let deleted := (s.drop lo2).take (hi2 - lo2)
      let b' := (b.remove? lo2 (hi2 - lo2)).getD b
      let cur' := if isForward then cur else Cursor.from_char_idx b'.content lo2
      (some deleted, cur', b')

/-- Search direction from search.rs. -/
inductive SearchDirection where
  | Forward
  | Backward
deriving DecidableEq

/-- `SearchState` from search.rs. -/
structure SearchState where
  pattern : Str
  direction : SearchDirection
  «matches» : List Nat
  current_match : Option Nat
deriving DecidableEq

/-- `SearchState::new`. -/
def SearchState.new : SearchState := ⟨[], .Forward, [], none⟩

/-- `find_all_matches`: the scan resumes one character past each found
match start, so it records every offset at which the pattern occurs, in
ascending order; that set is exactly the positions where the pattern is a
prefix of the remaining text.  An empty pattern yields no matches (the
early return). -/
def find_all_matches (text : Str) (pat : Str) : List Nat :=
  if pat.isEmpty then []
  else (List.range text.length).filter (fun i => pat.isPrefixOf (text.drop i))

/-- `SearchState::set_pattern(pattern, direction, buffer)`: records the
pattern and direction and recomputes the matches, clearing
`current_match`. -/
def SearchState.set_pattern (_st : SearchState) (pat : Str)
    (dir : SearchDirection) (buffer : Str) : SearchState :=
  ⟨pat, dir, find_all_matches buffer pat, none⟩

/-- `rposition(p)`: index of the last element satisfying `p`. -/
def rpositionIdx (p : Nat → Bool) (l : List Nat) : Option Nat :=
  (l.reverse.findIdx? p).map (fun i => l.length - 1 - i)

/-- `SearchState::calc_next_match(cursor, buffer)`: forward direction
takes the first stored offset strictly greater than the cursor offset,
wrapping to index 0 only when more than one match exists; backward is the
mirror. -/
def SearchState.calc_next_match (st : SearchState) (cur : Cursor) (buffer : Str) :
    Option Nat :=
  if st.«matches».isEmpty then none
  else
    let off := cur.to_char_idx buffer
    match st.direction with
    | .Forward =>
      match st.«matches».findIdx? (fun m => off < m) with
      | some i => some i
      | none => if 1 < st.«matches».length then some 0 else none
    | .Backward =>
      match rpositionIdx (fun m => m < off) st.«matches» with
      | some i => some i
      | none => if 1 < st.«matches».length then some (st.«matches».length - 1) else none

/-- `SearchState::get_match_pos(idx)`. -/
def SearchState.get_match_pos (st : SearchState) (idx : Nat) : Option Nat :=
  st.«matches».get? idx

/-- A register from register.rs: text content and the linewise flag. -/
structure Register where
  content : String
  linewise : Bool
deriving DecidableEq

/-- The slice of `RegisterManager` state involved in the unnamed-register
claims: the unnamed register and the ten numbered registers (indices
0–9; other indices of the model function are never written or read). -/
structure RegisterManager where
  unnamed : Register
  numbered : Nat → Register

/-- `RegisterManager::new`: every register starts empty. -/
def RegisterManager.init : RegisterManager :=
  ⟨⟨"", false⟩, fun _ => ⟨"", false⟩⟩

/-- Modelled from the spec: `set_unnamed_delete` is called throughout
editor.rs and the unit tests but its definition is absent from the
sources in scope (src register.rs predates the yank/delete split).  Per
the spec: both flavours unconditionally overwrite the unnamed register
and numbered register 0 with the new content; delete additionally shifts
numbered registers 1→2, …, 8→9 (discarding what was in 9) before old
register 0's prior content is placed into register 1. -/
def set_unnamed_delete (m : RegisterManager) (content : String) (lw : Bool) :
    RegisterManager :=
  { unnamed := ⟨content, lw⟩,
    numbered := fun j =>
      if j = 0 then ⟨content, lw⟩
      else if j ≤ 9 then m.numbered (j - 1)
      else m.numbered j }

/-- Modelled from the spec: `set_unnamed_yank` overwrites the unnamed
register and numbered register 0 only; yanks never participate in the
numbered-register shift. -/
def set_unnamed_yank (m : RegisterManager) (content : String) (lw : Bool) :
    RegisterManager :=
  { unnamed := ⟨content, lw⟩,
    numbered := fun j => if j = 0 then ⟨content, lw⟩ else m.numbered j }

/-- A sequence of delete-flavoured unnamed-register updates. -/
def applyDeletes (m : RegisterManager) (cs : List (String × Bool)) : RegisterManager :=
  cs.foldl (fun m p => set_unnamed_delete m p.1 p.2) m

/-- A sequence of yank-flavoured unnamed-register updates. -/
def applyYanks (m : RegisterManager) (cs : List (String × Bool)) : RegisterManager :=
  cs.foldl (fun m p => set_unnamed_yank m p.1 p.2) m

/-- Rust `str::lines` on the buffer text: split at newlines, dropping the
final empty piece produced by a trailing newline (so `""` has no lines),
and stripping an optional carriage return before each break.  Derived
from `linesKeep`, whose last segment is empty exactly when the text is
empty or newline-terminated. -/
def stripBreak (l : Str) : Str :=
  let l1 := if l.getLast? = some '\n' then l.dropLast else l
  if l1.getLast? = some '\r' then l1.dropLast else l1

/-- Rust `text.lines().collect()`. -/
def rustLines (s : Str) : List Str :=
  let L := linesKeep s
  (if L.getLast? = some [] then L.dropLast else L).map stripBreak

/-- Rust `line.replace(pattern, replacement)`: non-overlapping
left-to-right replacement, fuelled by the line length (each step consumes
at least one character for a non-empty pattern; callers guard the empty
pattern). -/
def replaceAllGo (pat repl : Str) : Nat → Str → Str
  | 0, l => l
  | _ + 1, [] => []
  | fuel + 1, c :: rest =>
    if pat.isPrefixOf (c :: rest) then
      repl ++ replaceAllGo pat repl fuel ((c :: rest).drop pat.length)
    else c :: replaceAllGo pat repl fuel rest

/-- Rust `line.replace(pattern, replacement)`. -/
def replaceAll (pat repl l : Str) : Str := replaceAllGo pat repl l.length l

/-- Rust `line.matches(pattern).count()`: number of non-overlapping
left-to-right occurrences. -/
def countMatchesGo (pat : Str) : Nat → Str → Nat
  | 0, _ => 0
  | _ + 1, [] => 0
  | fuel + 1, c :: rest =>
    if pat.isPrefixOf (c :: rest) then
      1 + countMatchesGo pat fuel ((c :: rest).drop pat.length)
    else countMatchesGo pat fuel rest

/-- Rust `line.matches(pattern).count()`. -/
def countMatches (pat l : Str) : Nat := countMatchesGo pat l.length l

/-- Rust `line.find(pattern)`: offset of the leftmost occurrence. -/
def firstMatchPos (pat l : Str) : Option Nat :=
  (List.range l.length).find? (fun i => pat.isPrefixOf (l.drop i))

/-- Per-line body of `replace_in_buffer`: the new line text and the
number of replacements performed on it. -/
def processLine (pat repl : Str) (global : Bool) (l : Str) : Str × Nat :=
  if global then (replaceAll pat repl l, countMatches pat l)
  else
    match firstMatchPos pat l with
    | some p => (l.take p ++ repl ++ l.drop (p + pat.length), 1)
    | none => (l, 0)

/-- `ReplaceResult` from replace.rs. -/
structure ReplaceResult where
  count : Nat
  new_text : Str
deriving DecidableEq

/-- `replace_in_buffer` from replace.rs: empty patterns return
immediately; otherwise the buffer text is split into lines, the lines in
range are processed, and the buffer is REBUILT from scratch —
`*buffer = Buffer::new(buffer_id)` followed by inserting the rejoined
text (which always ends with a trailing newline). -/
def replace_in_buffer (b : Buffer) (pat repl : Str) (global : Bool)
    (lineRange : Option (Nat × Nat)) : ReplaceResult × Buffer :=
  if pat.isEmpty then (⟨0, b.content⟩, b)
  else
    let lines := rustLines b.content
    let range := lineRange.getD (0, lines.length)
    let results := lines.enum.map (fun pr =>
      if range.1 ≤ pr.1 ∧ pr.1 < range.2 then processLine pat repl global pr.2
      else (pr.2, 0))
    let newText := (List.intercalate ['\n'] (results.map Prod.fst)) ++ ['\n']
    let total := (results.map Prod.snd).sum
    let fresh := Buffer.new b.id
    let nb := (fresh.insert? 0 newText).getD fresh
    (⟨total, newText⟩, nb)

/-- An undo/redo snapshot from editor.rs (`EditState`): full buffer text,
cursor and the buffer's optional file path. -/
structure EditState where
  buffer_content : Str
  cursor : Cursor
  file_path : Option String
deriving DecidableEq

/-- The slice of `Editor` state the undo/redo claims concern: the active
buffer, the cursor, and the two snapshot stacks. -/
structure EditorSt where
  buf : Buffer
  cursor : Cursor
  undo_stack : List EditState
  redo_stack : List EditState
deriving DecidableEq

/-- `Editor::save_state`: push a snapshot of the current state onto the
undo stack and clear the redo stack. -/
def save_state (e : EditorSt) : EditorSt :=
  { e with
    undo_stack := ⟨e.buf.content, e.cursor, e.buf.file_path⟩ :: e.undo_stack,
    redo_stack := [] }

/-- Restore a buffer from a snapshot as editor.rs does: a fresh
`Buffer::new` with the same id, the snapshot content inserted at 0, and
the snapshot path restored when present. -/
def restoreBuffer (id : Nat) (st : EditState) : Buffer :=
  let fresh := Buffer.new id
  let b1 := (fresh.insert? 0 st.buffer_content).getD fresh
  match st.file_path with
  | some p => { b1 with file_path := some p }
  | none => b1

/-- `Editor::undo`: pop the undo stack; if a snapshot is present, push the
current state onto the redo stack, then restore buffer content, file path
and cursor from the popped snapshot. -/
def undo (e : EditorSt) : EditorSt :=
  match e.undo_stack with
  | [] => e
  | st :: rest =>
    { buf := restoreBuffer e.buf.id st,
      cursor := st.cursor,
      undo_stack := rest,
      redo_stack := ⟨e.buf.content, e.cursor, e.buf.file_path⟩ :: e.redo_stack }

/-- `Editor::redo`: the exact mirror of `undo`. -/
def redo (e : EditorSt) : EditorSt :=
  match e.redo_stack with
  | [] => e
  | st :: rest =>
    { buf := restoreBuffer e.buf.id st,
      cursor := st.cursor,
      undo_stack := ⟨e.buf.content, e.cursor, e.buf.file_path⟩ :: e.undo_stack,
      redo_stack := rest }

/-- An arbitrary single mutating Editor command, as the Undo/Redo claim
characterises it: every mutating entry point in editor.rs is wrapped in
`with_save_state!` (push a snapshot of the pre-mutation state, clear the
redo stack) and then performs some mutation of the active buffer's
content, the cursor, and (in general) the file path.  The mutation is
universally quantified through the three arguments. -/
def mutatingCommand (e : EditorSt) (c' : Str) (cur' : Cursor)
    (p' : Option String) : EditorSt :=
  let e1 := save_state e
  { e1 with buf := { e1.buf with content := c', file_path := p' }, cursor := cur' }

/-- The observable triple the Undo/Redo claim speaks about. -/
def obs (e : EditorSt) : Str × Cursor × Option String :=
  (e.buf.content, e.cursor, e.buf.file_path)

/-! ### Structural lemmas about the line segmentation -/

theorem linesKeep_ne_nil (s : Str) : linesKeep s ≠ [] := by
  cases s with
  | nil => simp [linesKeep]
  | cons c rest =>
    simp only [linesKeep]
    split
    · simp
    · cases h : linesKeep rest with
      | nil => simp
      | cons l ls => simp [h]

theorem flatten_linesKeep (s : Str) : (linesKeep s).flatten = s := by
  induction s with
  | nil => simp [linesKeep]
  | cons c rest ih =>
    simp only [linesKeep]
    split
    · simpa using ih
    · cases h : linesKeep rest with
      | nil => exact absurd h (linesKeep_ne_nil rest)
      | cons l ls =>
        rw [h] at ih
        simpa using ih

theorem linesKeep_nonlast_getLast (s : Str) :
    ∀ j, j + 1 < (linesKeep s).length → ((linesKeep s).getD j []).getLast? = some '\n' := by
  induction s with
  | nil => intro j hj; simp [linesKeep] at hj
  | cons c rest ih =>
    intro j hj
    revert hj
    simp only [linesKeep]
    split
    · rename_i hc
      subst hc
      intro hj
      cases j with
      | zero => simp
      | succ j' =>
        simp only [List.getD_cons_succ]
        exact ih j' (by simpa using hj)
    · cases h : linesKeep rest with
      | nil => exact absurd h (linesKeep_ne_nil rest)
      | cons l ls =>
        intro hj
        cases j with
        | zero =>
          simp only [List.getD_cons_zero]
          have h0 : ((linesKeep rest).getD 0 []).getLast? = some '\n' := by
            apply ih 0
            rw [h]
            simpa using hj
          rw [h] at h0
          simp only [List.getD_cons_zero] at h0
          have hl : l ≠ [] := by
            intro he; rw [he] at h0; simp at h0
          cases l with
          | nil => exact absurd rfl hl
          | cons b bl => rw [List.getLast?_cons_cons]; simpa using h0
        | succ j' =>
          simp only [List.getD_cons_succ]
          have := ih (j' + 1) (by rw [h]; simpa using hj)
          rw [h] at this
          simpa using this

theorem linesKeep_nonlast_ne_nil (s : Str) :
    ∀ j, j + 1 < (linesKeep s).length → (linesKeep s).getD j [] ≠ [] := by
  intro j hj he
  have := linesKeep_nonlast_getLast s j hj
  rw [he] at this
  simp at this

theorem sumLen_nil : sumLen [] = 0 := rfl

theorem sumLen_cons (x : Str) (M : List Str) : sumLen (x :: M) = x.length + sumLen M := by
  simp [sumLen]

theorem sumLen_append (A B : List Str) : sumLen (A ++ B) = sumLen A + sumLen B := by
  simp [sumLen]

theorem length_eq_sumLen (s : Str) : s.length = sumLen (linesKeep s) := by
  conv_lhs => rw [← flatten_linesKeep s]
  simp [sumLen]

theorem lineToChar_le_length (s : Str) (i : Nat) : lineToChar s i ≤ s.length := by
  rw [length_eq_sumLen s, lineToChar]
  conv_rhs => rw [← List.take_append_drop i (linesKeep s)]
  rw [sumLen_append]
  omega

theorem charToLineAux_sumLen :
    ∀ (L : List Str) (i col : Nat), i < L.length →
    col < max 1 ((L.getD i []).length) →
    (∀ j, j + 1 < L.length → L.getD j [] ≠ []) →
    charToLineAux L (sumLen (L.take i) + col) = i := by
  intro L
  induction L with
  | nil => intro i col hi _ _; simp at hi
  | cons x M ih =>
    intro i col hi hcol hnl
    cases i with
    | zero =>
      simp only [List.take_zero, sumLen_nil, Nat.zero_add]
      cases M with
      | nil => rfl
      | cons y Mt =>
        have hx : x ≠ [] := by
          have := hnl 0 (by simp)
          simpa using this
        have hxlen : 1 ≤ x.length := by
          cases x with
          | nil => exact absurd rfl hx
          | cons _ _ => simp
        have hc : col < x.length := by
          simp only [List.getD_cons_zero] at hcol
          omega
        simp [charToLineAux, hc]
    | succ i' =>
      have hM : M ≠ [] := by
        intro he
        rw [he] at hi
        simp at hi
      cases M with
      | nil => exact absurd rfl hM
      | cons y Mt =>
        have step : sumLen ((x :: y :: Mt).take (i' + 1)) =
            x.length + sumLen ((y :: Mt).take i') := by
          simp [sumLen_cons]
        rw [step]
        have hno : ¬ (x.length + sumLen ((y :: Mt).take i') + col < x.length) := by omega
        simp only [charToLineAux, if_neg hno]
        have harith : x.length + sumLen ((y :: Mt).take i') + col - x.length =
            sumLen ((y :: Mt).take i') + col := by omega
        rw [harith]
        have hrec := ih i' col (by simpa using hi) (by simpa using hcol)
          (fun j hj => by
            have := hnl (j + 1) (by simpa using hj)
            simpa using this)
        omega

theorem flatten_getElem? :
    ∀ (L : List Str) (i k : Nat), k < (L.getD i []).length →
    (L.flatten)[sumLen (L.take i) + k]? = (L.getD i [])[k]? := by
  intro L
  induction L with
  | nil => intro i k hk; simp at hk
  | cons x M ih =>
    intro i k hk
    cases i with
    | zero =>
      simp only [List.getD_cons_zero] at hk ⊢
      simp only [List.take_zero, sumLen_nil, Nat.zero_add, List.flatten_cons]
      exact List.getElem?_append_left hk
    | succ i' =>
      simp only [List.getD_cons_succ] at hk ⊢
      have step : sumLen ((x :: M).take (i' + 1)) = x.length + sumLen (M.take i') := by
        simp [sumLen_cons]
      rw [step, List.flatten_cons]
      have hge : x.length ≤ x.length + sumLen (M.take i') + k := by omega
      rw [Nat.add_assoc, List.getElem?_append_right (by omega)]
      have : x.length + (sumLen (M.take i') + k) - x.length = sumLen (M.take i') + k := by
        omega
      rw [this]
      exact ih i' k hk

theorem newline_before_line (s : Str) (line : Nat)
    (h1 : 0 < line) (h2 : line < numLines s) :
    1 ≤ lineToChar s line ∧ lineToChar s line ≤ s.length ∧
    s[lineToChar s line - 1]? = some '\n' := by
  set L := linesKeep s with hL
  set seg := L.getD (line - 1) [] with hseg
  have hlt : line - 1 + 1 < L.length := by
    have : line < L.length := h2
    omega
  have hlast : seg.getLast? = some '\n' := linesKeep_nonlast_getLast s (line - 1) hlt
  have hne : seg ≠ [] := by
    intro he; rw [he] at hlast; simp at hlast
  have hlen : 1 ≤ seg.length := by
    cases hs : seg with
    | nil => exact absurd hs hne
    | cons _ _ => simp [hs]
  have hgetE : L[line - 1]? = some seg := by
    have hlt2 : line - 1 < L.length := by omega
    rw [hseg, List.getD_eq_getElem?_getD]
    cases hx : L[line - 1]? with
    | none =>
      rw [List.getElem?_eq_none_iff] at hx
      omega
    | some v => simp
  have hsplit : lineToChar s line = sumLen (L.take (line - 1)) + seg.length := by
    have : line = (line - 1) + 1 := by omega
    rw [lineToChar, ← hL, this, List.take_succ, hgetE]
    simp [sumLen_append, sumLen_cons, sumLen_nil]
  refine ⟨by omega, lineToChar_le_length s line, ?_⟩
  have hidx : lineToChar s line - 1 = sumLen (L.take (line - 1)) + (seg.length - 1) := by
    omega
  rw [hidx]
  have hflat : L.flatten = s := flatten_linesKeep s
  have := flatten_getElem? L (line - 1) (seg.length - 1) (by rw [← hseg]; omega)
  rw [hflat] at this
  rw [this, ← hseg]
  have := List.getLast?_eq_getElem? seg
  rw [hlast] at this
  exact this.symm

/-! ### Cursor round-trip -/

theorem from_to_char_idx (s : Str) (cur : Cursor)
    (hp : cur.preferred_column = none) (hl : cur.line < numLines s)
    (hc : cur.column < max 1 (lineLen s cur.line)) :
    Cursor.from_char_idx s (cur.to_char_idx s) = cur := by
  have hline : charToLine s (cur.to_char_idx s) = cur.line := by
    rw [Cursor.to_char_idx, charToLine, lineToChar]
    exact charToLineAux_sumLen (linesKeep s) cur.line cur.column hl hc
      (linesKeep_nonlast_ne_nil s)
  rcases cur with ⟨l, c, pc⟩
  simp only at hp
  subst hp
  simp only [Cursor.from_char_idx, Cursor.mk.injEq]
  refine ⟨hline, ?_, trivial⟩
  rw [hline]
  simp [Cursor.to_char_idx]

/-! ### Claim C1 -/

/-- Claim C1: for every single mutating Editor command executed from a
state S — the command first pushes a snapshot of S and clears the redo
stack, then mutates buffer content, cursor and (in general) file path —
`undo` restores the active buffer's content, the cursor and the file path
to their values in S, and `redo` after that undo restores the
post-mutation content, cursor and file path. -/
theorem C1_undo_redo_roundtrip (e : EditorSt) (c' : Str) (cur' : Cursor)
    (p' : Option String) :
    obs (undo (mutatingCommand e c' cur' p')) = obs e ∧
    obs (redo (undo (mutatingCommand e c' cur' p'))) =
      obs (mutatingCommand e c' cur' p') := by
  rcases e with ⟨⟨id, c, p, mo, ro⟩, cur, us, rs⟩
  cases p <;> cases p' <;>
    simp [obs, undo, redo, mutatingCommand, save_state, restoreBuffer,
      Buffer.insert?, Buffer.new]

/-! ### Claim C4 -/

/-- Claim C4 counterexample: `from_char_idx` always constructs the cursor
with `preferred_column = None`, so the round trip does not restore a
cursor whose `preferred_column` is set, even with the line and column in
range. -/
theorem C4_cex :
    Cursor.from_char_idx ("ab".data)
        (Cursor.to_char_idx ⟨0, 1, some 1⟩ ("ab".data)) ≠
      (⟨0, 1, some 1⟩ : Cursor) := by decide

/-- Claim C4 (amended): for a cursor whose line is below the line count,
whose column lies within the line (below `max 1 line_len`), and whose
`preferred_column` is `None`, the round trip
`from_char_idx (to_char_idx)` is the identity. -/
theorem C4_roundtrip_no_preferred (s : Str) (cur : Cursor)
    (hp : cur.preferred_column = none) (hl : cur.line < numLines s)
    (hc : cur.column < max 1 (lineLen s cur.line)) :
    Cursor.from_char_idx s (cur.to_char_idx s) = cur :=
  from_to_char_idx s cur hp hl hc

/-- Witness for C4: the round trip at a concrete in-range cursor. -/
theorem C4_witness :
    Cursor.from_char_idx ("ab\ncd".data)
        (Cursor.to_char_idx ⟨1, 1, none⟩ ("ab\ncd".data)) =
      (⟨1, 1, none⟩ : Cursor) :=
  C4_roundtrip_no_preferred ("ab\ncd".data) ⟨1, 1, none⟩ rfl (by decide) (by decide)

/-! ### Claim C8 -/

/-- Claim C8 counterexample: the horizontal moves DO cross line
boundaries — `move_left` at column 0 of line 1 moves to line 0, and
`move_right` past the line end moves to the next line. -/
theorem C8_cex :
    (Cursor.move_left ⟨1, 0, none⟩ ("ab\ncd".data) 1).line ≠ 1 ∧
    (Cursor.move_right ⟨0, 1, none⟩ ("ab\ncd".data) 2).line ≠ 0 := by decide

/-- Claim C8 (amended): exact line effect of the horizontal moves.
`move_left` keeps the line unless the count exceeds the column on a
non-first line, in which case it moves up one line; `move_right` keeps
the line unless the target column passes the line's last column while a
next line exists, in which case it moves down one line. -/
theorem C8_horizontal_line_change (s : Str) (cur : Cursor) (count : Nat) :
    (Cursor.move_left cur s count).line =
      (if count ≤ cur.column then cur.line
       else if 0 < cur.line then cur.line - 1 else cur.line) ∧
    (Cursor.move_right cur s count).line =
      (if cur.column + count ≤ lineLen s cur.line - 1 then cur.line
       else if cur.line + 1 < numLines s then cur.line + 1 else cur.line) := by
  constructor
  · simp only [Cursor.move_left]
    split_ifs <;> rfl
  · simp only [Cursor.move_right]
    split_ifs <;> rfl

/-! ### Claim C9 -/

/-- Claim C9 counterexample: `insert` and `remove` with a start offset
beyond the buffer length do not clamp — they panic (modelled as `none`):
inserting at offset 1 into an empty buffer, and removing at offset 1. -/
theorem C9_cex :
    (Buffer.new 0).insert? 1 ['x'] = none ∧
    (Buffer.new 0).remove? 1 0 = none := by decide

/-- Claim C9 (amended): only `remove`'s END offset is clamped (to the
buffer length), so any removal length is safe once the start offset is in
range; both `insert` and `remove` succeed whenever the start offset is at
most the buffer length; but a start offset strictly beyond the buffer
length panics for both (on a writable buffer; read-only buffers no-op). -/
theorem C9_clamp_behaviour (b : Buffer) (idx len : Nat) (text : Str) :
    (idx ≤ b.content.length → (b.insert? idx text).isSome ∧ (b.remove? idx len).isSome) ∧
    (b.read_only = false → idx ≤ b.content.length →
      b.remove? idx len = some { b with
        content := b.content.take idx ++
          b.content.drop (min (idx + len) b.content.length),
        modified := true }) ∧
    (b.read_only = false → b.content.length < idx →
      b.insert? idx text = none ∧ b.remove? idx len = none) := by
  refine ⟨?_, ?_, ?_⟩
  · intro h
    constructor <;> simp [Buffer.insert?, Buffer.remove?, h] <;> split_ifs <;> simp
  · intro hro h
    simp [Buffer.remove?, hro, h]
  · intro hro h
    constructor <;> simp [Buffer.insert?, Buffer.remove?, hro] <;> omega

/-- Witness for C9: a clamped in-range removal (length 5 from a 1-char
buffer) succeeds, and an out-of-range insert panics. -/
theorem C9_witness :
    (⟨0, ['a'], none, false, false⟩ : Buffer).remove? 1 5 =
      some (⟨0, ['a'], none, true, false⟩ : Buffer) ∧
    (⟨0, [], none, false, false⟩ : Buffer).insert? 1 ['x'] = none := by
  constructor
  · exact (C9_clamp_behaviour ⟨0, ['a'], none, false, false⟩ 1 5 ['x']).2.1 rfl (by decide)
  · exact ((C9_clamp_behaviour ⟨0, [], none, false, false⟩ 1 0 ['x']).2.2 rfl (by decide)).1

/-! ### Claim C10 -/

/-- Claim C10: for every `replace_in_buffer` call with a non-empty
pattern (even with zero replacements), the buffer is rebuilt from scratch
via `Buffer::new` plus `insert`: afterwards its file path is `None`, its
read-only flag is cleared, and its modified flag is set. -/
theorem C10_substitute_rebuilds_buffer (b : Buffer) (pat repl : Str)
    (global : Bool) (lineRange : Option (Nat × Nat)) (hp : pat ≠ []) :
    (replace_in_buffer b pat repl global lineRange).2.file_path = none ∧
    (replace_in_buffer b pat repl global lineRange).2.read_only = false ∧
    (replace_in_buffer b pat repl global lineRange).2.modified = true := by
  have hne : pat.isEmpty = false := by
    cases pat with
    | nil => exact absurd rfl hp
    | cons _ _ => rfl
  simp [replace_in_buffer, hne, Buffer.insert?, Buffer.new]

/-- Witness for C10: a substitute on a read-only buffer with a file path
and zero occurrences of the pattern still drops the path, clears
read-only, and marks the buffer modified. -/
theorem C10_witness :
    (replace_in_buffer ⟨0, "hello".data, some "f", false, true⟩
        ("zzz".data) ("hi".data) true none).2.file_path = none ∧
    (replace_in_buffer ⟨0, "hello".data, some "f", false, true⟩
        ("zzz".data) ("hi".data) true none).2.read_only = false ∧
    (replace_in_buffer ⟨0, "hello".data, some "f", false, true⟩
        ("zzz".data) ("hi".data) true none).2.modified = true :=
  C10_substitute_rebuilds_buffer _ _ _ _ _ (by decide)

/-! ### Claim C6 -/

/-- "Ends in exactly one trailing newline": the last character is a
newline and the character before it (if any) is not. -/
def endsExactlyOneNl (l : Str) : Prop :=
  l.getLast? = some '\n' ∧ l.dropLast.getLast? ≠ some '\n'

instance (l : Str) : Decidable (endsExactlyOneNl l) := by
  unfold endsExactlyOneNl
  infer_instance

/-- Claim C6 counterexample: a completely empty buffer saves as an empty
file (no newline at all), and a buffer ending in two newlines saves them
verbatim — neither saved file ends in exactly one trailing newline. -/
theorem C6_cex :
    ((⟨0, [], some "f", false, false⟩ : Buffer).savedBytes = some [] ∧
      ¬ endsExactlyOneNl []) ∧
    ((⟨0, "a\n\n".data, some "f", false, false⟩ : Buffer).savedBytes =
        some ("a\n\n".data) ∧
      ¬ endsExactlyOneNl ("a\n\n".data)) := by decide

/-- Claim C6 (amended): `save` appends a newline only when the content is
non-empty and does not already end in one (and then the file ends in
exactly one); content already ending in a newline is written verbatim,
preserving however many trailing newlines it has; an empty buffer writes
an empty file.  Consequently every non-empty buffer's saved file ends in
at least one newline. -/
theorem C6_save_newline (b : Buffer) (w : Str) (hw : b.savedBytes = some w) :
    (b.content = [] → w = []) ∧
    (b.content.getLast? = some '\n' → w = b.content) ∧
    (b.content ≠ [] → b.content.getLast? ≠ some '\n' →
      w = b.content ++ ['\n'] ∧ endsExactlyOneNl w) ∧
    (b.content ≠ [] → w.getLast? = some '\n') := by
  rcases b with ⟨id, c, p, mo, ro⟩
  cases p with
  | none => simp [Buffer.savedBytes] at hw
  | some path =>
    simp only [Buffer.savedBytes] at hw
    have hw' : w = c ++
        (if 0 < c.length then
          (if c.getLast? = some '\n' then [] else ['\n'])
         else []) := by
      injection hw with h
      exact h.symm
    refine ⟨?_, ?_, ?_, ?_⟩
    · intro hc; subst hc; simpa using hw'
    · intro hlast
      have hne : c ≠ [] := by
        intro he; rw [he] at hlast; simp at hlast
      have hpos : 0 < c.length := List.length_pos.mpr hne
      rw [hw', if_pos hpos, if_pos hlast]
      simp
    · intro hne hlast
      have hpos : 0 < c.length := List.length_pos.mpr hne
      rw [hw', if_pos hpos, if_neg hlast]
      refine ⟨rfl, List.getLast?_concat c, ?_⟩
      rw [List.dropLast_concat]
      exact hlast
    · intro hne
      have hpos : 0 < c.length := List.length_pos.mpr hne
      by_cases hlast : c.getLast? = some '\n'
      · rw [hw', if_pos hpos, if_pos hlast]
        simpa using hlast
      · rw [hw', if_pos hpos, if_neg hlast]
        exact List.getLast?_concat c

/-- Witness for C6: saving a one-character buffer appends exactly one
newline. -/
theorem C6_witness :
    (['a'] : Str) ≠ [] ∧
    (⟨0, ['a'], some "f", false, false⟩ : Buffer).savedBytes = some ['a', '\n'] ∧
    endsExactlyOneNl ['a', '\n'] := by
  refine ⟨by decide, by decide, ?_⟩
  exact ((C6_save_newline ⟨0, ['a'], some "f", false, false⟩ ['a', '\n']
    (by decide)).2.2.1 (by decide) (by decide)).2

/-! ### Claim C7 -/

/-- Claim C7 counterexample: Backspace at column 0 of line 1 of
`"hello\nworld"` merges the lines correctly, but the cursor lands at
column 6 — the previous line's length INCLUDING its newline — which is
one past the join point (the end of the shortened previous line,
column 5). -/
theorem C7_cex :
    (editBackspace ⟨1, 0, none⟩
        ⟨0, "hello\nworld".data, none, false, false⟩).2.1.content =
      "helloworld".data ∧
    (editBackspace ⟨1, 0, none⟩
        ⟨0, "hello\nworld".data, none, false, false⟩).1.line = 0 ∧
    (editBackspace ⟨1, 0, none⟩
        ⟨0, "hello\nworld".data, none, false, false⟩).1.column ≠
      ("hello".data).length := by decide

/-- Claim C7 (amended): Backspace at column 0 of a non-first line of a
writable buffer removes exactly the single newline separating the line
from its predecessor (the character at offset `line_start - 1`, which is
provably a newline), and moves the cursor to the previous line at a
column equal to that line's former length INCLUDING its newline — one
past the join point. -/
theorem C7_backspace_merge (b : Buffer) (cur : Cursor)
    (hro : b.read_only = false) (hc : cur.column = 0) (hl : 0 < cur.line)
    (hn : cur.line < numLines b.content) :
    (editBackspace cur b).2.1.content =
      b.content.take (lineToChar b.content cur.line - 1) ++
        b.content.drop (lineToChar b.content cur.line) ∧
    b.content[lineToChar b.content cur.line - 1]? = some '\n' ∧
    (editBackspace cur b).1.line = cur.line - 1 ∧
    (editBackspace cur b).1.column = lineLen b.content (cur.line - 1) := by
  obtain ⟨h1, h2, h3⟩ := newline_before_line b.content cur.line hl hn
  have hnc : ¬ 0 < cur.column := by omega
  have hle : lineToChar b.content cur.line - 1 ≤ b.content.length := by omega
  have hmin : min (lineToChar b.content cur.line - 1 + 1) b.content.length =
      lineToChar b.content cur.line := by omega
  have hbr : b.remove? (lineToChar b.content cur.line - 1) 1 =
      some { b with content := b.content.take (lineToChar b.content cur.line - 1) ++
          b.content.drop (lineToChar b.content cur.line), modified := true } := by
    rw [Buffer.remove?, if_neg (by rw [hro]; simp), if_pos hle, hmin]
  refine ⟨?_, h3, ?_, ?_⟩ <;> simp [editBackspace, hnc, hl, hbr]

/-- Witness for C7: the merge on `"hello\nworld"` with the cursor at
(1, 0). -/
theorem C7_witness :
    (editBackspace ⟨1, 0, none⟩
        ⟨0, "hello\nworld".data, none, false, false⟩).2.1.content =
      ("hello\nworld".data).take 5 ++ ("hello\nworld".data).drop 6 ∧
    (editBackspace ⟨1, 0, none⟩
        ⟨0, "hello\nworld".data, none, false, false⟩).1.column =
      lineLen ("hello\nworld".data) 0 := by
  have h := C7_backspace_merge ⟨0, "hello\nworld".data, none, false, false⟩
    ⟨1, 0, none⟩ rfl rfl (by decide) (by decide)
  exact ⟨h.1, h.2.2.2⟩

/-! ### Claim C3 -/

/-- Claim C3, evaluated.  The WordForward scenario from the spec holds:
on `"hello world\nnext line"` with the cursor at offset 6 (line 0,
column 6), `delete_to_motion(WordForward)` removes exactly `"world"`,
leaves `"hello \nnext line"`, and keeps the cursor in place.  But the
universal part of the claim — the truncation ensures no newline character
is ever removed — fails for WordBackward: on `"ab\ncd"` with the cursor
at line 1 column 0, the truncated end offset becomes the LOWER bound of
the deleted range, so the command deletes exactly the separating newline,
yielding `"abcd"`, contrary to the code's own comment and the spec. -/
theorem C3_word_delete_eval :
    deleteToMotion .WordForward ⟨0, 6, none⟩
        ⟨0, "hello world\nnext line".data, none, false, false⟩ =
      (some ("world".data), ⟨0, 6, none⟩,
        ⟨0, "hello \nnext line".data, none, true, false⟩) ∧
    (deleteToMotion .WordBackward ⟨1, 0, none⟩
        ⟨0, "ab\ncd".data, none, false, false⟩).1 = some ['\n'] ∧
    (deleteToMotion .WordBackward ⟨1, 0, none⟩
        ⟨0, "ab\ncd".data, none, false, false⟩).2.2.content = "abcd".data := by
  decide

/-! ### Claim C2 -/

theorem applyDeletes_nil (m : RegisterManager) : applyDeletes m [] = m := rfl

theorem applyDeletes_cons (m : RegisterManager) (p : String × Bool)
    (cs : List (String × Bool)) :
    applyDeletes m (p :: cs) = applyDeletes (set_unnamed_delete m p.1 p.2) cs := rfl

/-- After a sequence of delete-flavoured updates, numbered register `j`
(for `j ≤ 9`) holds the `j`-th most recent content when at least `j + 1`
updates happened, and otherwise the start state's register `j - N`. -/
theorem applyDeletes_numbered (cs : List (String × Bool)) :
    ∀ (m : RegisterManager) (j : Nat), j ≤ 9 →
    ((applyDeletes m cs).numbered j).content =
      if j < cs.length then (cs.map Prod.fst).reverse.getD j ""
      else (m.numbered (j - cs.length)).content := by
  induction cs with
  | nil =>
    intro m j _
    simp [applyDeletes_nil]
  | cons p cs' ih =>
    intro m j hj
    rw [applyDeletes_cons]
    rw [ih (set_unnamed_delete m p.1 p.2) j hj]
    by_cases h1 : j < cs'.length
    · have h2 : j < (p :: cs').length := by simp; omega
      rw [if_pos h1, if_pos h2]
      have hrev : ((p :: cs').map Prod.fst).reverse =
          (cs'.map Prod.fst).reverse ++ [p.1] := by simp
      rw [hrev, List.getD_append _ _ _ _ (by simpa using h1)]
    · rw [if_neg h1]
      by_cases h2 : j = cs'.length
      · subst h2
        have hlt : cs'.length < (p :: cs').length := by simp
        rw [if_pos hlt]
        have hrev : ((p :: cs').map Prod.fst).reverse =
            (cs'.map Prod.fst).reverse ++ [p.1] := by simp
        rw [hrev, List.getD_append_right _ _ _ _ (by simp)]
        simp [set_unnamed_delete]
      · have h3 : ¬ j < (p :: cs').length := by simp; omega
        rw [if_neg h3]
        have h4 : j - cs'.length ≠ 0 := by omega
        have h5 : j - cs'.length ≤ 9 := by omega
        simp only [set_unnamed_delete, if_neg h4, if_pos h5]
        congr 1

/-- Yank-flavoured updates never touch numbered registers 1–9. -/
theorem applyYanks_numbered (cs : List (String × Bool)) :
    ∀ (m : RegisterManager) (j : Nat), 1 ≤ j →
    (applyYanks m cs).numbered j = m.numbered j := by
  induction cs with
  | nil => intro m j _; rfl
  | cons p cs' ih =>
    intro m j hj
    have hstep : applyYanks m (p :: cs') =
        applyYanks (set_unnamed_yank m p.1 p.2) cs' := rfl
    rw [hstep, ih _ j hj]
    simp [set_unnamed_yank, Nat.pos_iff_ne_zero.mp hj]

/-- Claim C2 counterexample: with N = 11 delete-flavoured updates
(contents "a" … "k"), numbered register `min(N-1, 9) = 9` holds the
SECOND content "b", not the first: the first content was shifted out of
register 9 on the eleventh delete. -/
theorem C2_cex :
    ((applyDeletes RegisterManager.init
        [("a", false), ("b", false), ("c", false), ("d", false), ("e", false),
         ("f", false), ("g", false), ("h", false), ("i", false), ("j", false),
         ("k", false)]).numbered (min (11 - 1) 9)).content ≠ "a" := by
  decide

/-- Claim C2 (amended, spec-modelled `set_unnamed_delete` /
`set_unnamed_yank`): N delete-flavoured updates with contents c1..cN
leave numbered register 0 holding cN, and — provided N ≤ 10 — numbered
register `min(N-1, 9) = N-1` holding c1 (for N ≥ 11 the first content has
been discarded from register 9); yank-flavoured updates never populate
numbered registers 1–9 from the initial state. -/
theorem C2_register_shift :
    (∀ (cs : List (String × Bool)) (h1 : cs ≠ []), cs.length ≤ 10 →
      ((applyDeletes RegisterManager.init cs).numbered 0).content =
        (cs.getLast h1).1 ∧
      ((applyDeletes RegisterManager.init cs).numbered (cs.length - 1)).content =
        (cs.head h1).1) ∧
    (∀ (ys : List (String × Bool)) (j : Nat), 1 ≤ j →
      ((applyYanks RegisterManager.init ys).numbered j).content = "") := by
  constructor
  · intro cs h1 h2
    have hlen : 0 < cs.length := List.length_pos.mpr h1
    constructor
    · rw [applyDeletes_numbered cs RegisterManager.init 0 (by omega),
        if_pos (by omega)]
      have : (cs.map Prod.fst).reverse.getD 0 "" = (cs.getLast h1).1 := by
        rw [List.getD_eq_getElem?_getD,
          List.getElem?_reverse (by simpa using hlen)]
        have hl : (cs.map Prod.fst).getLast? = some (cs.getLast h1).1 := by
          rw [List.getLast?_map, List.getLast?_eq_getLast_of_ne_nil h1]
          rfl
        rw [List.getLast?_eq_getElem?] at hl
        simp only [List.length_map] at hl ⊢
        simp [hl]
      exact this
    · rw [applyDeletes_numbered cs RegisterManager.init (cs.length - 1) (by omega),
        if_pos (by omega)]
      have : (cs.map Prod.fst).reverse.getD (cs.length - 1) "" = (cs.head h1).1 := by
        rw [List.getD_eq_getElem?_getD,
          List.getElem?_reverse (by simpa using hlen)]
        have hh : (cs.map Prod.fst).head? = some (cs.head h1).1 := by
          rw [List.head?_map, List.head?_eq_head h1]
          rfl
        have h0 : (cs.map Prod.fst).length - 1 - (cs.length - 1) = 0 := by
          simp only [List.length_map]
          omega
        rw [h0, ← List.head?_eq_getElem?, hh]
        rfl
      exact this
  · intro ys j hj
    rw [applyYanks_numbered ys RegisterManager.init j hj]
    rfl

/-- Witness for C2: two deletes "x", "y" put "y" in register 0 and "x" in
register 1; a yank leaves register 1 empty. -/
theorem C2_witness :
    ((applyDeletes RegisterManager.init [("x", false), ("y", false)]).numbered 0).content = "y" ∧
    ((applyDeletes RegisterManager.init [("x", false), ("y", false)]).numbered 1).content = "x" ∧
    ((applyYanks RegisterManager.init [("z", false)]).numbered 1).content = "" := by
  have h := C2_register_shift.1 [("x", false), ("y", false)] (by decide) (by decide)
  exact ⟨h.1, h.2, C2_register_shift.2 [("z", false)] 1 (by decide)⟩

/-! ### Claim C5 -/

theorem findIdx?_cons_zero {α : Type} (p : α → Bool) (x : α) (xs : List α) :
    (x :: xs).findIdx? p =
      if p x then some 0 else (xs.findIdx? p).map (fun k => k + 1) := by
  rw [List.findIdx?_cons]
  split
  · rfl
  · rw [List.findIdx?_start_succ]

/-- `findIdx?` returns exactly the first index whose element satisfies
the predicate. -/
theorem findIdx?_spec {α : Type} (p : α → Bool) :
    ∀ (l : List α) (i : Nat), l.findIdx? p = some i ↔
      ((∃ a, l[i]? = some a ∧ p a = true) ∧
        ∀ j, j < i → ∀ b, l[j]? = some b → p b = false) := by
  intro l
  induction l with
  | nil => intro i; simp
  | cons x xs ih =>
    intro i
    rw [findIdx?_cons_zero]
    by_cases hx : p x
    · rw [if_pos hx]
      constructor
      · intro h
        injection h with h
        subst h
        exact ⟨⟨x, by simp, hx⟩, fun j hj => by omega⟩
      · rintro ⟨⟨a, ha, hpa⟩, hmin⟩
        cases i with
        | zero => rfl
        | succ i' =>
          have h0 := hmin 0 (by omega) x (by simp)
          rw [hx] at h0
          exact absurd h0 (by simp)
    · rw [if_neg hx]
      constructor
      · intro h
        rcases Option.map_eq_some'.mp h with ⟨k, hk, hik⟩
        subst hik
        rcases (ih k).mp hk with ⟨⟨a, ha, hpa⟩, hmin⟩
        refine ⟨⟨a, by simpa using ha, hpa⟩, ?_⟩
        intro j hj b hb
        cases j with
        | zero =>
          simp only [List.getElem?_cons_zero, Option.some.injEq] at hb
          subst hb
          simpa using hx
        | succ j' =>
          exact hmin j' (by omega) b (by simpa using hb)
      · rintro ⟨⟨a, ha, hpa⟩, hmin⟩
        cases i with
        | zero =>
          simp only [List.getElem?_cons_zero, Option.some.injEq] at ha
          subst ha
          exact absurd hpa (by simpa using hx)
        | succ i' =>
          have hxs : xs.findIdx? p = some i' := by
            apply (ih i').mpr
            refine ⟨⟨a, by simpa using ha, hpa⟩, ?_⟩
            intro j hj b hb
            exact hmin (j + 1) (by omega) b (by simpa using hb)
          rw [hxs]
          rfl

/-- Claim C5: for a forward-direction search, `calc_next_match` returns
the index of the first stored match offset strictly greater than the
cursor's character offset; when no such offset exists it wraps to index 0
if at least 2 matches exist and yields no result otherwise.  On buffer
`"hello world hello"` with pattern `"hello"` the stored matches are
`[0, 12]`; the cursor at offset 2 yields the match at offset 12, and the
cursor at offset 15 wraps to the match at offset 0. -/
theorem C5_calc_next_match :
    (∀ (pat : Str) (cm : Option Nat) (ms : List Nat) (cur : Cursor) (s : Str)
        (i : Nat),
      SearchState.calc_next_match ⟨pat, .Forward, ms, cm⟩ cur s = some i ↔
        ((∃ m, ms[i]? = some m ∧ cur.to_char_idx s < m) ∧
          ∀ j, j < i → ∀ m, ms[j]? = some m → m ≤ cur.to_char_idx s) ∨
        ((∀ m ∈ ms, m ≤ cur.to_char_idx s) ∧ 2 ≤ ms.length ∧ i = 0)) ∧
    ((SearchState.new.set_pattern ("hello".data) .Forward
        ("hello world hello".data)).«matches» = [0, 12] ∧
      (SearchState.new.set_pattern ("hello".data) .Forward
        ("hello world hello".data)).calc_next_match ⟨0, 2, none⟩
        ("hello world hello".data) = some 1 ∧
      (SearchState.new.set_pattern ("hello".data) .Forward
        ("hello world hello".data)).get_match_pos 1 = some 12 ∧
      (SearchState.new.set_pattern ("hello".data) .Forward
        ("hello world hello".data)).calc_next_match ⟨0, 15, none⟩
        ("hello world hello".data) = some 0 ∧
      (SearchState.new.set_pattern ("hello".data) .Forward
        ("hello world hello".data)).get_match_pos 0 = some 0) := by
  constructor
  · intro pat cm ms cur s i
    by_cases hms : ms.isEmpty
    · have hnil : ms = [] := by
        cases ms with
        | nil => rfl
        | cons _ _ => simp at hms
      subst hnil
      simp [SearchState.calc_next_match]
    · have hcalc : SearchState.calc_next_match ⟨pat, .Forward, ms, cm⟩ cur s =
          (match ms.findIdx? (fun m => decide (cur.to_char_idx s < m)) with
           | some k => some k
           | none => if 1 < ms.length then some 0 else none) := by
        simp only [SearchState.calc_next_match, hms]
        rfl
      rw [hcalc]
      cases hf : ms.findIdx? (fun m => decide (cur.to_char_idx s < m)) with
      | some k =>
        rcases (findIdx?_spec _ ms k).mp hf with ⟨⟨a, ha, hpa⟩, hmin⟩
        have hlt : cur.to_char_idx s < a := by simpa using hpa
        constructor
        · intro h
          injection h with h
          subst h
          left
          refine ⟨⟨a, ha, hlt⟩, ?_⟩
          intro j hj b hb
          have := hmin j hj b hb
          simpa using this
        · rintro (⟨⟨a', ha', hlt'⟩, hmin'⟩ | ⟨hall, _, hi0⟩)
          · have hik : i = k := by
              by_contra hne
              rcases Nat.lt_or_ge i k with hik | hik
              · have h1 := hmin i hik a' ha'
                simp only [decide_eq_false_iff_not, not_lt] at h1
                omega
              · have hik' : k < i := by omega
                have h2 := hmin' k hik' a ha
                omega
            rw [hik]
          · exfalso
            have := hall a (List.getElem?_mem ha)
            omega
      | none =>
        have hnone := List.findIdx?_eq_none_iff.mp hf
        have hall : ∀ m ∈ ms, m ≤ cur.to_char_idx s := by
          intro m hm
          have := hnone m hm
          simpa using this
        by_cases hlen : 1 < ms.length
        · rw [if_pos hlen]
          constructor
          · intro h
            injection h with h
            subst h
            right
            exact ⟨hall, by omega, rfl⟩
          · rintro (⟨⟨a, ha, hlt⟩, _⟩ | ⟨_, _, hi0⟩)
            · have := hall a (List.getElem?_mem ha)
              omega
            · subst hi0
              rfl
        · rw [if_neg hlen]
          constructor
          · intro h
            exact absurd h (by simp)
          · rintro (⟨⟨a, ha, hlt⟩, _⟩ | ⟨_, hge2, _⟩)
            · have := hall a (List.getElem?_mem ha)
              omega
            · omega
  · refine ⟨by decide, by decide, by decide, by decide, by decide⟩

/-- Witness for C5: the characterisation applied at matches `[3, 5]` and
cursor offset 4 (cursor `(0, 4)` on a one-line buffer) concludes that the
next match is the one at index 1. -/
theorem C5_witness :
    SearchState.calc_next_match ⟨[], .Forward, [3, 5], none⟩ ⟨0, 4, none⟩
      ("abcdef".data) = some 1 := by
  apply (C5_calc_next_match.1 [] none [3, 5] ⟨0, 4, none⟩ ("abcdef".data) 1).mpr
  left
  refine ⟨⟨5, by decide, by decide⟩, ?_⟩
  intro j hj m hm
  interval_cases j
  · simp only [List.getElem?_cons_zero, Option.some.injEq] at hm
    subst hm
    decide

end AiVim
